import Mathlib

/-!
Verification of the reconciliation core of cbrgm/sync-secrets-action.

The Go source is embedded shallowly: remote HTTP adapters become records of
response functions, side effects become explicit call traces, Go maps become
association lists, byte strings become lists of naturals, and the blocking
clock of the rate-limit governor becomes explicit time passing.  Each
definition mirrors one function of the source tree (file and line references
are given in the doc comments).
-/

namespace SyncSecrets

/-! ## Crypto sealer (github.go / part_009:809-857) -/

/-- A byte, modelled as a natural number below 256. -/
abbrev Byte := Nat

/-- Mirrors github.PublicKey: the base64-encoded key material and its
stable identifier (GetKey / GetKeyID). -/
structure PublicKey where
  key : String
  keyId : String
deriving Repr, DecidableEq

/-- Mirrors github.EncryptedSecret: name, key id, base64 ciphertext. -/
structure EncryptedSecret where
  name : String
  keyId : String
  encryptedValue : List Char
deriving Repr, DecidableEq

/-- Mirrors github.DependabotEncryptedSecret (same fields as
github.EncryptedSecret). -/
structure DependabotEncryptedSecret where
  name : String
  keyId : String
  encryptedValue : List Char
deriving Repr, DecidableEq

/-- Value of one character of the standard base64 alphabet, none if the
character is not in the alphabet. -/
def b64Char (c : Char) : Option Nat :=
  if 'A' ≤ c ∧ c ≤ 'Z' then some (c.toNat - 65)
  else if 'a' ≤ c ∧ c ≤ 'z' then some (c.toNat - 97 + 26)
  else if '0' ≤ c ∧ c ≤ '9' then some (c.toNat - 48 + 52)
  else if c = '+' then some 62
  else if c = '/' then some 63
  else none

/-- Standard base64 decoding with mandatory padding, mirroring Go
base64.StdEncoding.DecodeString on inputs free of embedded newlines: the
length must be a multiple of four, every non-padding character must come from
the standard alphabet, and padding may appear only at the end.  Like Go's
StdEncoding (and unlike StrictEncoding) we do not reject non-zero unused
trailing bits. -/
def base64Decode : List Char → Option (List Byte)
  | [] => some []
  | a :: b :: c :: d :: rest =>
    match b64Char a, b64Char b with
    | some x, some y =>
      if c = '=' then
        if d = '=' ∧ rest = [] then some [x * 4 + y / 16] else none
      else
        match b64Char c with
        | some z =>
          if d = '=' then
            if rest = [] then some [x * 4 + y / 16, y % 16 * 16 + z / 4] else none
          else
            match b64Char d with
            | some w =>
              match base64Decode rest with
              | some bs => some ((x * 4 + y / 16) :: (y % 16 * 16 + z / 4) :: (z % 4 * 64 + w) :: bs)
              | none => none
            | none => none
        | none => none
    | _, _ => none
  | _ => none

/-- Character of the standard base64 alphabet for a 6-bit value. -/
def b64Digit (n : Nat) : Char :=
  if n < 26 then Char.ofNat (65 + n)
  else if n < 52 then Char.ofNat (97 + (n - 26))
  else if n < 62 then Char.ofNat (48 + (n - 52))
  else if n = 62 then '+' else '/'

/-- Standard base64 encoding with padding, mirroring Go
base64.StdEncoding.EncodeToString. -/
def base64Encode : List Byte → List Char
  | [] => []
  | [b1] => [b64Digit (b1 / 4), b64Digit (b1 % 4 * 16), '=', '=']
  | [b1, b2] => [b64Digit (b1 / 4), b64Digit (b1 % 4 * 16 + b2 / 16), b64Digit (b2 % 16 * 4), '=']
  | b1 :: b2 :: b3 :: rest =>
    b64Digit (b1 / 4) :: b64Digit (b1 % 4 * 16 + b2 / 16) ::
      b64Digit (b2 % 16 * 4 + b3 / 64) :: b64Digit (b3 % 64) :: base64Encode rest

/-- Bytes of a secret value (the source takes the UTF-8 bytes of the Go
string; we model at character granularity, which agrees on ASCII data and is
irrelevant to the claims below). -/
def strBytes (s : String) : List Byte := s.toList.map Char.toNat

/-- Mirrors `var boxKey [32]byte; copy(boxKey[:], decodedPublicKey)`:
the decoded key is truncated to 32 bytes, and a shorter decoded key leaves
the remaining bytes zero. -/
def boxKeyOf (decoded : List Byte) : List Byte :=
  decoded.take 32 ++ List.replicate (32 - decoded.length) 0

/-- Embeds encryptSecretWithPublicKey (part_009:809-832).  The call
box.SealAnonymous(..., crypto_rand.Reader), an external sealed-box primitive
whose only failure mode is a broken randomness source, is abstracted as the
total function argument seal from (32-byte key, message bytes) to ciphertext
bytes. -/
def encryptSecretWithPublicKey (sealOp : List Byte → List Byte → List Byte)
    (publicKey : PublicKey) (secretName secretValue : String) :
    Except String EncryptedSecret :=
  match base64Decode publicKey.key.toList with
  | none => Except.error "failed to decode public key"
  | some decodedPublicKey =>
    let boxKey := boxKeyOf decodedPublicKey
    let encryptedBytes := sealOp boxKey (strBytes secretValue)
    Except.ok { name := secretName, keyId := publicKey.keyId,
                encryptedValue := base64Encode encryptedBytes }

/-- Embeds encryptDependabotWithPublicKey (part_009:834-857), a verbatim
duplicate of encryptSecretWithPublicKey producing the Dependabot payload
type. -/
def encryptDependabotWithPublicKey (sealOp : List Byte → List Byte → List Byte)
    (publicKey : PublicKey) (secretName secretValue : String) :
    Except String DependabotEncryptedSecret :=
  match base64Decode publicKey.key.toList with
  | none => Except.error "failed to decode public key"
  | some decodedPublicKey =>
    let boxKey := boxKeyOf decodedPublicKey
    let encryptedBytes := sealOp boxKey (strBytes secretValue)
    Except.ok { name := secretName, keyId := publicKey.keyId,
                encryptedValue := base64Encode encryptedBytes }

/-! ## Scope adapter and synchronizer
(github_repository.go:59-226, github_dependabot.go:38-127) -/

/-- One page of a paginated listing: the entry names on the page and the
NextPage field of the response (0 means no further pages). -/
structure ListPage where
  names : List String
  nextPage : Nat
deriving Repr, DecidableEq

/-- The remote responses a secrets-scope sync can observe: the result of
listing a given page, of deleting a given name, of fetching the public key,
and of a create-or-update for a given name. -/
structure SecretsAdapter where
  listPage : Nat → Except String ListPage
  deleteSecret : String → Except String Unit
  publicKey : Except String PublicKey
  createOrUpdate : String → Except String Unit

/-- A remote call recorded in the trace of a sync run. -/
inductive Call where
  | listSecrets (page : Nat)
  | deleteSecret (name : String)
  | getPublicKey
  | createOrUpdateSecret (name : String)
deriving Repr, DecidableEq

/-- Mirrors `existingMap[name] = true` on a Go map represented as the list
of its keys in insertion order. -/
def insertName (acc : List String) (n : String) : List String :=
  if n ∈ acc then acc else acc ++ [n]

/-- Folds a page of names into the aggregated existing-name set. -/
def insertNames (acc : List String) (ns : List String) : List String :=
  ns.foldl insertName acc

/-- Embeds the pagination loop shared verbatim by SyncRepoSecrets
(github_repository.go:89-104, and 62-78 for the dry-run copy) and
SyncDependabotSecrets (github_dependabot.go:97-112): list a page, aggregate
its names, stop when NextPage is 0, follow NextPage otherwise.  The fuel
argument bounds how many times a non-zero NextPage may be followed; the Go
loop simply does not terminate on an infinite page chain, which the model
cuts off with a designated error. -/
def listAllSecrets (lp : Nat → Except String ListPage) :
    Nat → Nat → List String → List Call → List Call × Except String (List String)
  | 0, page, acc, tr =>
    let tr2 := tr ++ [Call.listSecrets page]
    match lp page with
    | Except.error e => (tr2, Except.error e)
    | Except.ok pg =>
      let acc2 := insertNames acc pg.names
      if pg.nextPage = 0 then (tr2, Except.ok acc2)
      else (tr2, Except.error "page limit exceeded")
  | fuel + 1, page, acc, tr =>
    let tr2 := tr ++ [Call.listSecrets page]
    match lp page with
    | Except.error e => (tr2, Except.error e)
    | Except.ok pg =>
      let acc2 := insertNames acc pg.names
      if pg.nextPage = 0 then (tr2, Except.ok acc2)
      else listAllSecrets lp fuel pg.nextPage acc2 tr2

/-- Embeds the deletion loop of SyncRepoSecrets
(github_repository.go:106-113): every aggregated existing name absent from
the desired mapping is deleted; a deletion failure aborts with a wrapped
error. -/
def deleteMissingRepoSecrets (del : String → Except String Unit)
    (mappings : List (String × String)) : List String → List Call × Except String Unit
  | [] => ([], Except.ok ())
  | n :: rest =>
    if (mappings.lookup n).isSome then deleteMissingRepoSecrets del mappings rest
    else
      match del n with
      | Except.error e =>
        ([Call.deleteSecret n], Except.error ("failed to delete secret " ++ n ++ ": " ++ e))
      | Except.ok () =>
        let (tr, res) := deleteMissingRepoSecrets del mappings rest
        (Call.deleteSecret n :: tr, res)

/-- Embeds the upsert loop of PutRepoSecrets (github_repository.go:132-141):
seal each desired entry and create-or-update it; an encryption or remote
failure aborts with a wrapped error. -/
def upsertRepoSecrets (adapter : SecretsAdapter) (sealOp : List Byte → List Byte → List Byte)
    (pk : PublicKey) : List (String × String) → List Call × Except String Unit
  | [] => ([], Except.ok ())
  | (n, v) :: rest =>
    match encryptSecretWithPublicKey sealOp pk n v with
    | Except.error e => ([], Except.error ("failed to encrypt secret " ++ n ++ ": " ++ e))
    | Except.ok _secret =>
      match adapter.createOrUpdate n with
      | Except.error e =>
        ([Call.createOrUpdateSecret n],
         Except.error ("failed to update secret " ++ n ++ ": " ++ e))
      | Except.ok () =>
        let (tr, res) := upsertRepoSecrets adapter sealOp pk rest
        (Call.createOrUpdateSecret n :: tr, res)

/-- Embeds PutRepoSecrets (github_repository.go:118-143): in dry-run mode it
only logs and returns nil without any remote call; otherwise it fetches the
public key once and upserts every desired entry. -/
def putRepoSecrets (dryRunEnabled : Bool) (adapter : SecretsAdapter)
    (sealOp : List Byte → List Byte → List Byte) (mappings : List (String × String)) :
    List Call × Except String Unit :=
  if dryRunEnabled then ([], Except.ok ())
  else
    match adapter.publicKey with
    | Except.error e => ([Call.getPublicKey], Except.error ("failed to get public key: " ++ e))
    | Except.ok pk =>
      let (tr, res) := upsertRepoSecrets adapter sealOp pk mappings
      (Call.getPublicKey :: tr, res)

/-- Embeds SyncRepoSecrets (github_repository.go:59-116): in dry-run mode it
pages through the existing secrets (logging intended actions) and returns;
otherwise it aggregates the full existing-name set, deletes the names absent
from the desired mapping, and delegates to PutRepoSecrets. -/
def syncRepoSecrets (dryRunEnabled : Bool) (adapter : SecretsAdapter)
    (sealOp : List Byte → List Byte → List Byte) (mappings : List (String × String))
    (fuel : Nat) : List Call × Except String Unit :=
  if dryRunEnabled then
    match listAllSecrets adapter.listPage fuel 0 [] [] with
    | (tr, Except.error e) => (tr, Except.error ("dry run: failed to list existing secrets: " ++ e))
    | (tr, Except.ok _) => (tr, Except.ok ())
  else
    match listAllSecrets adapter.listPage fuel 0 [] [] with
    | (tr, Except.error e) => (tr, Except.error ("failed to list existing secrets: " ++ e))
    | (tr, Except.ok existing) =>
      match deleteMissingRepoSecrets adapter.deleteSecret mappings existing with
      | (tr2, Except.error e) => (tr ++ tr2, Except.error e)
      | (tr2, Except.ok ()) =>
        let (tr3, res) := putRepoSecrets false adapter sealOp mappings
        (tr ++ tr2 ++ tr3, res)

/-- Embeds the deletion loop of SyncDependabotSecrets
(github_dependabot.go:114-121), which returns a deletion failure unwrapped. -/
def deleteMissingDependabotSecrets (del : String → Except String Unit)
    (mappings : List (String × String)) : List String → List Call × Except String Unit
  | [] => ([], Except.ok ())
  | n :: rest =>
    if (mappings.lookup n).isSome then deleteMissingDependabotSecrets del mappings rest
    else
      match del n with
      | Except.error e => ([Call.deleteSecret n], Except.error e)
      | Except.ok () =>
        let (tr, res) := deleteMissingDependabotSecrets del mappings rest
        (Call.deleteSecret n :: tr, res)

/-- Embeds the upsert loop of PutDependabotSecrets
(github_dependabot.go:52-63), which returns failures unwrapped. -/
def upsertDependabotSecrets (adapter : SecretsAdapter) (sealOp : List Byte → List Byte → List Byte)
    (pk : PublicKey) : List (String × String) → List Call × Except String Unit
  | [] => ([], Except.ok ())
  | (n, v) :: rest =>
    match encryptDependabotWithPublicKey sealOp pk n v with
    | Except.error e => ([], Except.error e)
    | Except.ok _secret =>
      match adapter.createOrUpdate n with
      | Except.error e => ([Call.createOrUpdateSecret n], Except.error e)
      | Except.ok () =>
        let (tr, res) := upsertDependabotSecrets adapter sealOp pk rest
        (Call.createOrUpdateSecret n :: tr, res)

/-- Embeds PutDependabotSecrets (github_dependabot.go:38-65). -/
def putDependabotSecrets (dryRunEnabled : Bool) (adapter : SecretsAdapter)
    (sealOp : List Byte → List Byte → List Byte) (mappings : List (String × String)) :
    List Call × Except String Unit :=
  if dryRunEnabled then ([], Except.ok ())
  else
    match adapter.publicKey with
    | Except.error e => ([Call.getPublicKey], Except.error e)
    | Except.ok pk =>
      let (tr, res) := upsertDependabotSecrets adapter sealOp pk mappings
      (Call.getPublicKey :: tr, res)

/-- Embeds SyncDependabotSecrets (github_dependabot.go:66-127): the same
shape as SyncRepoSecrets, with listing and deletion failures returned
unwrapped in the non-dry-run path. -/
def syncDependabotSecrets (dryRunEnabled : Bool) (adapter : SecretsAdapter)
    (sealOp : List Byte → List Byte → List Byte) (mappings : List (String × String))
    (fuel : Nat) : List Call × Except String Unit :=
  if dryRunEnabled then
    match listAllSecrets adapter.listPage fuel 0 [] [] with
    | (tr, Except.error e) =>
      (tr, Except.error ("dry run: failed to list existing Dependabot secrets: " ++ e))
    | (tr, Except.ok _) => (tr, Except.ok ())
  else
    match listAllSecrets adapter.listPage fuel 0 [] [] with
    | (tr, Except.error e) => (tr, Except.error e)
    | (tr, Except.ok existing) =>
      match deleteMissingDependabotSecrets adapter.deleteSecret mappings existing with
      | (tr2, Except.error e) => (tr ++ tr2, Except.error e)
      | (tr2, Except.ok ()) =>
        let (tr3, res) := putDependabotSecrets false adapter sealOp mappings
        (tr ++ tr2 ++ tr3, res)

/-- Embeds handleRepoSecrets (part_006:122-138): an empty parsed mapping
returns immediately; otherwise prune selects the Sync path and its absence
the Put path (log.Fatal on failure is modelled as the error outcome). -/
def handleRepoSecrets (prune dryRunEnabled : Bool) (adapter : SecretsAdapter)
    (sealOp : List Byte → List Byte → List Byte) (secrets : List (String × String))
    (fuel : Nat) : List Call × Except String Unit :=
  if secrets.length = 0 then ([], Except.ok ())
  else if prune then syncRepoSecrets dryRunEnabled adapter sealOp secrets fuel
  else putRepoSecrets dryRunEnabled adapter sealOp secrets

/-- Embeds handleDependabotSecrets (part_006:194-210). -/
def handleDependabotSecrets (prune dryRunEnabled : Bool) (adapter : SecretsAdapter)
    (sealOp : List Byte → List Byte → List Byte) (secrets : List (String × String))
    (fuel : Nat) : List Call × Except String Unit :=
  if secrets.length = 0 then ([], Except.ok ())
  else if prune then syncDependabotSecrets dryRunEnabled adapter sealOp secrets fuel
  else putDependabotSecrets dryRunEnabled adapter sealOp secrets

/-- Names deleted in a trace, in order. -/
def deletedNames (tr : List Call) : List String :=
  tr.filterMap fun c => match c with | Call.deleteSecret n => some n | _ => none

/-- Names upserted in a trace, in order. -/
def upsertNames (tr : List Call) : List String :=
  tr.filterMap fun c => match c with | Call.createOrUpdateSecret n => some n | _ => none

/-! ## Variable create-or-update (github_repository.go:47-49, part_005:52-64) -/

/-- The remote responses a variable create-or-update can observe. -/
structure VariableAdapter where
  updateVar : Except String Unit
  createVar : Except String Unit

/-- A platform variable action recorded in a trace. -/
inductive VarCall where
  | updateVar
  | createVar
deriving Repr, DecidableEq

/-- Embeds CreateOrUpdateRepoVariable (github_repository.go:47-49): it calls
the platform create action directly and returns its result. -/
def createOrUpdateRepoVariable (adapter : VariableAdapter) :
    List VarCall × Except String Unit :=
  ([VarCall.createVar], adapter.createVar)

/-- Embeds CreateOrUpdateEnvVariable (part_005:52-64): attempt the platform
update action; if it fails for any reason, attempt create; if create also
fails, report both failures, otherwise succeed. -/
def createOrUpdateEnvVariable (adapter : VariableAdapter) (name envName : String) :
    List VarCall × Except String Unit :=
  match adapter.updateVar with
  | Except.ok () => ([VarCall.updateVar], Except.ok ())
  | Except.error e =>
    match adapter.createVar with
    | Except.ok () => ([VarCall.updateVar, VarCall.createVar], Except.ok ())
    | Except.error ce =>
      ([VarCall.updateVar, VarCall.createVar],
       Except.error ("failed to update environment variable " ++ name ++ " in environment "
         ++ envName ++ ": " ++ e ++ "; failed to create: " ++ ce))

/-! ## Retry decorator (github.go:109-123, github_repository.go:286-297) -/

/-- Loop of backoff.Retry over backoff.WithMaxRetries(b, maxRetries)
(cenkalti/backoff v4, as imported by github_repository.go): invoke the
operation; on success stop; on failure ask the bound for the next interval,
which is Stop once maxRetries intervals have been handed out since the
start, so a run makes at most maxRetries + 1 invocations.  The argument op
gives the outcome of the i-th invocation (0-based); the result is the number
of invocations made and the final outcome.  Sleep lengths (exponential
backoff from a 2s initial interval) do not affect control flow within the
default 15-minute elapsed-time ceiling and are not modelled. -/
def backoffRetryAux (op : Nat → Except String Unit) :
    Nat → Nat → Nat × Except String Unit
  | attempt, 0 =>
    match op attempt with
    | Except.ok () => (attempt + 1, Except.ok ())
    | Except.error e => (attempt + 1, Except.error e)
  | attempt, remaining + 1 =>
    match op attempt with
    | Except.ok () => (attempt + 1, Except.ok ())
    | Except.error _ => backoffRetryAux op (attempt + 1) remaining

/-- Embeds the retry wrapper built by newRetryableGitHubAPI
(github.go:109-123) around one remote operation, as used by
CreateOrUpdateRepoSecret (github_repository.go:286-297). -/
def backoffRetry (op : Nat → Except String Unit) (maxRetries : Nat) :
    Nat × Except String Unit :=
  backoffRetryAux op 0 maxRetries

/-! ## Rate-limit governor (github.go:67-101) -/

/-- Mirrors the core rate of github.RateLimits: the quota limit, the calls
remaining, and the reset instant of the window (in seconds; limit and
remaining are non-negative counters). -/
structure Rate where
  limit : Nat
  remaining : Nat
  reset : Int
deriving Repr, DecidableEq

/-- An event of a governed call: a quota fetch, a blocking sleep of the
given number of seconds, or delegation to the wrapped client. -/
inductive RLEvent where
  | fetchRatelimits
  | sleep (seconds : Int)
  | delegate
deriving Repr, DecidableEq

/-- Mirrors `float64(remaining)/float64(limit) <= 0.05` (github.go:98) over
the non-negative integer counters: true exactly when the limit is positive
and remaining is at most a twentieth of it.  (The Go comparison runs in
float64; on counters of realistic magnitude the two agree, including the
division-by-zero cases, where the float comparison against NaN or positive
infinity is false.) -/
def rateLow (remaining limit : Nat) : Bool :=
  decide (0 < limit) && decide (20 * remaining ≤ limit)

/-- Embeds waitForRateLimitReset (github.go:67-87).  The fetches argument
lists the successive results of g.client.Ratelimits and now is the clock at
entry; sleeping advances the clock.  A fetch failure is logged and the wait
returns; a reset instant not in the future returns; otherwise the thread
sleeps until the reset instant plus a one-second buffer and re-checks.  The
result is none when the run would consume more fetches than provided (the Go
loop simply keeps polling), otherwise the clock at return and the events. -/
def waitForRateLimitReset : List (Except String Rate) → Int → Option (Int × List RLEvent)
  | [], _ => none
  | f :: rest, now =>
    match f with
    | Except.error _ => some (now, [RLEvent.fetchRatelimits])
    | Except.ok r =>
      let timeToWait := r.reset - now
      if 0 < timeToWait then
        match waitForRateLimitReset rest (now + (timeToWait + 1)) with
        | none => none
        | some (t, evs) =>
          some (t, RLEvent.fetchRatelimits :: RLEvent.sleep (timeToWait + 1) :: evs)
      else some (now, [RLEvent.fetchRatelimits])

/-- Embeds ensureRatelimits (github.go:90-101): fetch the current quota; on
a fetch failure log and return; when the remaining fraction is at or below
the 5% threshold, wait for the reset; otherwise return at once. -/
def ensureRatelimits : List (Except String Rate) → Int → Option (Int × List RLEvent)
  | [], _ => none
  | f :: rest, now =>
    match f with
    | Except.error _ => some (now, [RLEvent.fetchRatelimits])
    | Except.ok r =>
      if rateLow r.remaining r.limit then
        match waitForRateLimitReset rest now with
        | none => none
        | some (t, evs) => some (t, RLEvent.fetchRatelimits :: evs)
      else some (now, [RLEvent.fetchRatelimits])

/-! ## Desired-mapping input parsing (part_006:230-296)

Go strings are modelled as lists of characters, and the relevant Go string
primitives (strings.Split on a newline, strings.TrimSpace, strings.SplitN
with separator "=" and limit 2, strings.ToUpper) are embedded below. -/

/-- Whitespace in the sense of Go unicode.IsSpace, restricted to the ASCII
range (the Latin-1 and Unicode space characters are irrelevant here). -/
def goIsSpace (c : Char) : Bool :=
  c = ' ' || c = '\t' || c = '\n' || c = '\x0b' || c = '\x0c' || c = '\r'

/-- Mirrors strings.TrimSpace from the left. -/
def trimLeft (s : List Char) : List Char := s.dropWhile goIsSpace

/-- Mirrors strings.TrimSpace from the right. -/
def trimRight (s : List Char) : List Char := (s.reverse.dropWhile goIsSpace).reverse

/-- Mirrors strings.TrimSpace. -/
def trimSpace (s : List Char) : List Char := trimRight (trimLeft s)

/-- Mirrors strings.Split(s, newline): the (non-empty) list of segments
between newline characters; the empty string yields one empty segment. -/
def splitOnNewline : List Char → List (List Char)
  | [] => [[]]
  | c :: rest =>
    match splitOnNewline rest with
    | [] => [[]]
    | l :: ls => if c = '\n' then [] :: l :: ls else (c :: l) :: ls

/-- Mirrors strings.SplitN(line, eq-sign, 2): splits at the first equals
sign; none when the line has no equals sign (SplitN then returns a single
part and the caller's length check fails). -/
def splitFirstEq : List Char → Option (List Char × List Char)
  | [] => none
  | c :: rest =>
    if c = '=' then some ([], rest)
    else
      match splitFirstEq rest with
      | none => none
      | some (k, v) => some (c :: k, v)

/-- Mirrors strings.ToUpper on the ASCII range. -/
def toUpperStr (s : List Char) : List Char := s.map Char.toUpper

/-- A parsed mapping: a Go map[string]string represented as the association
list of its bindings in insertion order. -/
abbrev KVMap := List (List Char × List Char)

/-- Mirrors Go map assignment: replace the binding in place when the key is
present, append it otherwise. -/
def mapInsert (m : KVMap) (k v : List Char) : KVMap :=
  match m with
  | [] => [(k, v)]
  | (k0, v0) :: rest => if k0 = k then (k, v) :: rest else (k0, v0) :: mapInsert rest k v

/-- Embeds the line loop of parseKeyValuePairs (part_006:246-262): trim each
line, skip blank lines, split at the first equals sign (error when there is
none), trim key and value (error when either is empty), store under the
upper-cased key. -/
def parseKVLines : List (List Char) → KVMap → Except (List Char) KVMap
  | [], acc => Except.ok acc
  | line :: rest, acc =>
    let l := trimSpace line
    if l = [] then parseKVLines rest acc
    else
      match splitFirstEq l with
      | none => Except.error ("malformed secret, does not contain a key=value pair: ".toList ++ l)
      | some (k0, v0) =>
        let k := trimSpace k0
        let v := trimSpace v0
        if k = [] ∨ v = [] then
          Except.error ("malformed secret, key or value is empty: ".toList ++ l)
        else parseKVLines rest (mapInsert acc (toUpperStr k) v)

/-- True when a trimmed input is auto-detected as JSON
(part_006:241): it starts with an opening brace and ends with a closing
brace. -/
def jsonShaped (s : List Char) : Bool :=
  match s with
  | [] => false
  | c :: rest => c == '{' && (c :: rest).getLast (by simp) == '}'

/-- Embeds parseKeyValuePairs (part_006:230-263): empty input yields the
empty mapping; an input whose trimmed form is brace-delimited is delegated
to parseJSONKeyValuePairs, which deserializes through Go encoding/json, an
external library represented here by the jsonBranch argument; otherwise the
input is split into newline-separated KEY=VALUE lines. -/
def parseKeyValuePairs (jsonBranch : List Char → Except (List Char) KVMap)
    (raw : List Char) : Except (List Char) KVMap :=
  if raw = [] then Except.ok []
  else
    let trimmed := trimSpace raw
    if jsonShaped trimmed then jsonBranch trimmed
    else parseKVLines (splitOnNewline raw) []

/-- Joins lines with newline separators (strings.Join style). -/
def joinLines : List (List Char) → List Char
  | [] => []
  | [l] => l
  | l :: ls => l ++ '\n' :: joinLines ls

/-- Modelled from the spec: re-serialization of a parsed mapping back to
newline-separated KEY=VALUE lines (the round-trip property of spec section 8;
the source itself never serializes a mapping back to text). -/
def serializeKV (m : KVMap) : List Char :=
  joinLines (m.map fun p => p.1 ++ '=' :: p.2)

/-- Modelled from the spec: the (key, value) pairs literally written in a
newline-separated KEY=VALUE input, used to state the round-trip claim; each
non-blank line contributes the text before its first equals sign and the
text after it, untrimmed and with original casing. -/
def literalPairs (raw : List Char) : List (List Char × List Char) :=
  (splitOnNewline raw).filterMap fun line =>
    if trimSpace line = [] then none else splitFirstEq line

/-- Well-formedness of one written pair for the amended round-trip claim:
the key is non-empty, free of whitespace and equals signs, and fixed by
upper-casing; the value is non-empty, contains no newline, and neither
starts nor ends with whitespace. -/
def wfPair (k v : List Char) : Bool :=
  !k.isEmpty && k.all (fun c => !goIsSpace c && c != '=') && toUpperStr k == k &&
    !v.isEmpty && v.all (fun c => c != '\n') &&
    (match v.head? with | none => false | some c => !goIsSpace c) &&
    (match v.getLast? with | none => false | some c => !goIsSpace c)

/-- Well-formedness of a written pair list: every pair is well formed and
the keys are pairwise distinct. -/
def wfPairs (ps : List (List Char × List Char)) : Bool :=
  ps.all (fun p => wfPair p.1 p.2) && (ps.map Prod.fst).Nodup

/-- Embeds the uniform governed-call pattern of rateLimitedGitHubAPI
(github_repository.go:243-246 shows the DeleteRepoSecret instance):
ensureRatelimits first, then delegate to the wrapped client, whose outcome
is returned unchanged. -/
def rateLimitedDeleteRepoSecret (fetches : List (Except String Rate)) (now : Int)
    (delegateResult : Except String Unit) :
    Option (Int × List RLEvent × Except String Unit) :=
  match ensureRatelimits fetches now with
  | none => none
  | some (t, evs) => some (t, evs ++ [RLEvent.delegate], delegateResult)

/-! ## Concrete instances used to evaluate the theorems -/

/-- A stand-in sealed-box primitive for concrete evaluations (the claims are
independent of the ciphertext bytes). -/
def sealStub : List Byte → List Byte → List Byte := fun _ _ => [1, 2, 3]

/-- A stand-in JSON branch for concrete evaluations of inputs that are not
brace-delimited (the branch is never reached on them). -/
def jbStub : List Char → Except (List Char) KVMap := fun _ => Except.error []

/-- A public key whose base64 material decodes to the five bytes of
the word hello, fewer than the 32-byte sealed-box key size. -/
def shortKeyPk : PublicKey := { key := "aGVsbG8=", keyId := "key-1" }

/-- A remote holding secrets A, B, C on a single page, on which every
mutating operation succeeds. -/
def adapterABC : SecretsAdapter where
  listPage := fun p => if p = 0 then Except.ok ⟨["A", "B", "C"], 0⟩ else Except.error "no such page"
  deleteSecret := fun _ => Except.ok ()
  publicKey := Except.ok shortKeyPk
  createOrUpdate := fun _ => Except.ok ()

/-- A remote whose second listing page fails. -/
def adapterFailPage : SecretsAdapter where
  listPage := fun p => if p = 0 then Except.ok ⟨["A"], 2⟩ else Except.error "boom"
  deleteSecret := fun _ => Except.ok ()
  publicKey := Except.ok shortKeyPk
  createOrUpdate := fun _ => Except.ok ()

/-- The desired mapping with entries B and D. -/
def desiredBD : List (String × String) := [("B", "vb"), ("D", "vd")]

/-- A variable adapter whose platform update action fails with a
permission error (not a not-found failure) while create succeeds. -/
def varAdapterUpdateForbidden : VariableAdapter :=
  { updateVar := Except.error "403 Forbidden", createVar := Except.ok () }

/-- A variable adapter on which both platform actions succeed. -/
def varAdapterAllOk : VariableAdapter :=
  { updateVar := Except.ok (), createVar := Except.ok () }

/-- A well-formed written pair list: upper-case distinct keys, no
surrounding whitespace, the second value containing equals signs and an
inner space. -/
def wfSample : List (List Char × List Char) :=
  [("A".toList, "b".toList), ("K2".toList, "x=y z".toList)]

/-- An operation that fails on its first two invocations and succeeds on
the third. -/
def retryOpThird : Nat → Except String Unit
  | 0 => Except.error "transient 1"
  | 1 => Except.error "transient 2"
  | _ => Except.ok ()

/-!
# Theorems

Helper lemmas come first; the claim theorems below them reference the
spec claim they settle.
-/

theorem deletedNames_append (l1 l2 : List Call) :
    deletedNames (l1 ++ l2) = deletedNames l1 ++ deletedNames l2 :=
  List.filterMap_append l1 l2 _

theorem upsertNames_append (l1 l2 : List Call) :
    upsertNames (l1 ++ l2) = upsertNames l1 ++ upsertNames l2 :=
  List.filterMap_append l1 l2 _

theorem listCalls_no_mutations (ex : List Call)
    (h : ∀ c ∈ ex, ∃ p, c = Call.listSecrets p) :
    deletedNames ex = [] ∧ upsertNames ex = [] ∧ Call.getPublicKey ∉ ex := by
  refine ⟨List.filterMap_eq_nil_iff.mpr ?_, List.filterMap_eq_nil_iff.mpr ?_, ?_⟩
  · intro c hc; obtain ⟨p, rfl⟩ := h c hc; rfl
  · intro c hc; obtain ⟨p, rfl⟩ := h c hc; rfl
  · intro hc; obtain ⟨p, hp⟩ := h _ hc; exact Call.noConfusion hp

theorem listAllSecrets_trace_shape (lp : Nat → Except String ListPage) :
    ∀ (fuel page : Nat) (acc : List String) (tr : List Call),
    ∃ ex, (listAllSecrets lp fuel page acc tr).1 = tr ++ Call.listSecrets page :: ex
      ∧ ∀ c ∈ ex, ∃ p, c = Call.listSecrets p := by
  intro fuel
  induction fuel with
  | zero =>
    intro page acc tr
    refine ⟨[], ?_, by simp⟩
    rw [listAllSecrets]
    cases h : lp page with
    | error e => simp
    | ok pg =>
      by_cases h0 : pg.nextPage = 0 <;> simp [h0]
  | succ fuel ih =>
    intro page acc tr
    rw [listAllSecrets]
    cases h : lp page with
    | error e => exact ⟨[], by simp, by simp⟩
    | ok pg =>
      by_cases h0 : pg.nextPage = 0
      · exact ⟨[], by simp [h0], by simp⟩
      · obtain ⟨ex, hex, hall⟩ :=
          ih pg.nextPage (insertNames acc pg.names) (tr ++ [Call.listSecrets page])
        refine ⟨Call.listSecrets pg.nextPage :: ex, ?_, ?_⟩
        · simp only [h0, if_false]
          rw [hex]
          simp
        · intro c hc
          rw [List.mem_cons] at hc
          rcases hc with rfl | hc
          · exact ⟨pg.nextPage, rfl⟩
          · exact hall c hc

theorem deleteMissingRepoSecrets_all_ok (del : String → Except String Unit)
    (maps : List (String × String)) (hdel : ∀ n, del n = Except.ok ()) :
    ∀ ex, deleteMissingRepoSecrets del maps ex
      = ((ex.filter fun n => !(maps.lookup n).isSome).map Call.deleteSecret, Except.ok ()) := by
  intro ex
  induction ex with
  | nil => rfl
  | cons n rest ih =>
    cases hl : maps.lookup n with
    | some v => simp [deleteMissingRepoSecrets, hl, ih, List.filter_cons]
    | none => simp [deleteMissingRepoSecrets, hl, hdel n, ih, List.filter_cons]

theorem upsertRepoSecrets_all_ok (adapter : SecretsAdapter)
    (sealOp : List Byte → List Byte → List Byte) (pk : PublicKey) (ds : List Byte)
    (hds : base64Decode pk.key.toList = some ds)
    (hok : ∀ n, adapter.createOrUpdate n = Except.ok ()) :
    ∀ maps, upsertRepoSecrets adapter sealOp pk maps
      = (maps.map fun p => Call.createOrUpdateSecret p.1, Except.ok ()) := by
  intro maps
  induction maps with
  | nil => rfl
  | cons p rest ih =>
    obtain ⟨n, v⟩ := p
    simp only [upsertRepoSecrets, encryptSecretWithPublicKey, hds, hok n, ih, List.map_cons]

theorem upsertRepoSecrets_trace (adapter : SecretsAdapter)
    (sealOp : List Byte → List Byte → List Byte) (pk : PublicKey) :
    ∀ maps c, c ∈ (upsertRepoSecrets adapter sealOp pk maps).1 →
      ∃ n, c = Call.createOrUpdateSecret n := by
  intro maps
  induction maps with
  | nil => intro c hc; simp [upsertRepoSecrets] at hc
  | cons p rest ih =>
    obtain ⟨n, v⟩ := p
    intro c hc
    simp only [upsertRepoSecrets] at hc
    cases he : encryptSecretWithPublicKey sealOp pk n v with
    | error e => rw [he] at hc; simp at hc
    | ok s =>
      rw [he] at hc
      cases hcu : adapter.createOrUpdate n with
      | error e => rw [hcu] at hc; simp at hc; exact ⟨n, hc⟩
      | ok u =>
        cases u
        rw [hcu] at hc
        simp only [List.mem_cons] at hc
        rcases hc with rfl | hc
        · exact ⟨n, rfl⟩
        · exact ih c hc

theorem putRepoSecrets_no_deletes (dr : Bool) (adapter : SecretsAdapter)
    (sealOp : List Byte → List Byte → List Byte) (maps : List (String × String)) :
    deletedNames (putRepoSecrets dr adapter sealOp maps).1 = [] := by
  cases dr with
  | true => rfl
  | false =>
    cases hpk : adapter.publicKey with
    | error e => simp [putRepoSecrets, hpk, deletedNames]
    | ok pk =>
      have hshow : (putRepoSecrets false adapter sealOp maps).1
          = Call.getPublicKey :: (upsertRepoSecrets adapter sealOp pk maps).1 := by
        simp only [putRepoSecrets, hpk, Bool.false_eq_true, if_false]
      rw [hshow]
      refine List.filterMap_eq_nil_iff.mpr ?_
      intro c hc
      rw [List.mem_cons] at hc
      rcases hc with rfl | hc
      · rfl
      · obtain ⟨n, rfl⟩ := upsertRepoSecrets_trace adapter sealOp pk maps c hc
        rfl

theorem deletedNames_cons_pk (l : List Call) :
    deletedNames (Call.getPublicKey :: l) = deletedNames l := rfl

theorem upsertNames_cons_pk (l : List Call) :
    upsertNames (Call.getPublicKey :: l) = upsertNames l := rfl

theorem deletedNames_map_delete (l : List String) :
    deletedNames (l.map Call.deleteSecret) = l := by
  induction l with
  | nil => rfl
  | cons n rest ih => simp only [List.map_cons, deletedNames, List.filterMap_cons] at *; rw [ih]

theorem upsertNames_map_delete (l : List String) :
    upsertNames (l.map Call.deleteSecret) = [] := by
  induction l with
  | nil => rfl
  | cons n rest ih => simp only [List.map_cons, upsertNames, List.filterMap_cons] at *; rw [ih]

theorem upsertNames_map_upsert (maps : List (String × String)) :
    upsertNames (maps.map fun p => Call.createOrUpdateSecret p.1) = maps.map Prod.fst := by
  induction maps with
  | nil => rfl
  | cons p rest ih => simp only [List.map_cons, upsertNames, List.filterMap_cons] at *; rw [ih]

theorem deletedNames_map_upsert (maps : List (String × String)) :
    deletedNames (maps.map fun p => Call.createOrUpdateSecret p.1) = [] := by
  induction maps with
  | nil => rfl
  | cons p rest ih => simp only [List.map_cons, deletedNames, List.filterMap_cons] at *; rw [ih]

/-- Claim C1: with prune enabled (the Sync path) and a run in which the
remote accepts every call, exactly the aggregated existing names absent from
the desired mapping are deleted and exactly the desired entries are
upserted, and the run succeeds; with prune disabled (the Put path) no entry
is ever deleted, whatever the remote answers. -/
theorem sync_prune_deletes_diff (adapter : SecretsAdapter)
    (sealOp : List Byte → List Byte → List Byte) (mappings : List (String × String))
    (fuel : Nat) (tr : List Call) (existing : List String) (pk : PublicKey) (ds : List Byte)
    (hlist : listAllSecrets adapter.listPage fuel 0 [] [] = (tr, Except.ok existing))
    (hdel : ∀ n, adapter.deleteSecret n = Except.ok ())
    (hpk : adapter.publicKey = Except.ok pk)
    (hds : base64Decode pk.key.toList = some ds)
    (hup : ∀ n, adapter.createOrUpdate n = Except.ok ()) :
    deletedNames (syncRepoSecrets false adapter sealOp mappings fuel).1
        = existing.filter (fun n => !(mappings.lookup n).isSome)
      ∧ upsertNames (syncRepoSecrets false adapter sealOp mappings fuel).1
          = mappings.map Prod.fst
      ∧ (syncRepoSecrets false adapter sealOp mappings fuel).2 = Except.ok ()
      ∧ ∀ (dr : Bool) (adapter2 : SecretsAdapter)
          (sealOp2 : List Byte → List Byte → List Byte) (mappings2 : List (String × String)),
          deletedNames (putRepoSecrets dr adapter2 sealOp2 mappings2).1 = [] := by
  have hput : putRepoSecrets false adapter sealOp mappings
      = (Call.getPublicKey :: mappings.map (fun p => Call.createOrUpdateSecret p.1),
         Except.ok ()) := by
    simp only [putRepoSecrets, hpk, Bool.false_eq_true, if_false]
    rw [upsertRepoSecrets_all_ok adapter sealOp pk ds hds hup mappings]
  have hsync : syncRepoSecrets false adapter sealOp mappings fuel
      = (tr ++ (existing.filter fun n => !(mappings.lookup n).isSome).map Call.deleteSecret
           ++ (Call.getPublicKey :: mappings.map fun p => Call.createOrUpdateSecret p.1),
         Except.ok ()) := by
    simp only [syncRepoSecrets, Bool.false_eq_true, if_false, hlist,
      deleteMissingRepoSecrets_all_ok adapter.deleteSecret mappings hdel, hput]
  have htrNames : deletedNames tr = [] ∧ upsertNames tr = [] := by
    obtain ⟨ex, hex, hall⟩ := listAllSecrets_trace_shape adapter.listPage fuel 0 [] []
    rw [hlist] at hex
    simp only [List.nil_append] at hex
    have hmut := listCalls_no_mutations tr ?_
    · exact ⟨hmut.1, hmut.2.1⟩
    · intro c hc
      rw [hex] at hc
      rw [List.mem_cons] at hc
      rcases hc with rfl | hc
      · exact ⟨0, rfl⟩
      · exact hall c hc
  refine ⟨?_, ?_, ?_, fun dr a2 s2 m2 => putRepoSecrets_no_deletes dr a2 s2 m2⟩
  · rw [hsync]
    simp only [deletedNames_append, htrNames.1, deletedNames_map_delete, deletedNames_cons_pk,
      deletedNames_map_upsert, List.nil_append, List.append_nil]
  · rw [hsync]
    simp only [upsertNames_append, htrNames.2, upsertNames_map_delete, upsertNames_cons_pk,
      upsertNames_map_upsert, List.nil_append, List.append_nil]
  · rw [hsync]

/-- Evaluates sync_prune_deletes_diff on the spec's concrete instance:
existing secrets A, B, C and desired entries B, D yield deletions exactly
A, C and upserts exactly B, D with prune; the Put path deletes nothing. -/
theorem sync_prune_deletes_diff_witness :
    deletedNames (syncRepoSecrets false adapterABC sealStub desiredBD 5).1 = ["A", "C"]
      ∧ upsertNames (syncRepoSecrets false adapterABC sealStub desiredBD 5).1 = ["B", "D"]
      ∧ (syncRepoSecrets false adapterABC sealStub desiredBD 5).2 = Except.ok ()
      ∧ deletedNames (putRepoSecrets false adapterABC sealStub desiredBD).1 = [] := by
  have h := sync_prune_deletes_diff adapterABC sealStub desiredBD 5 [Call.listSecrets 0]
      ["A", "B", "C"] shortKeyPk [104, 101, 108, 108, 111] rfl (fun _ => rfl) rfl rfl
      (fun _ => rfl)
  refine ⟨?_, ?_, h.2.2.1, h.2.2.2 false adapterABC sealStub desiredBD⟩
  · rw [h.1]; rfl
  · rw [h.2.1]; rfl

/-- Claim C2: in dry-run mode a sync performs no delete, no create-or-update
and no public-key fetch, still performs the paginated listing, returns
success when the listing succeeds with the listing calls as its whole trace,
and the dry-run Put path performs no remote call at all. -/
theorem dry_run_no_mutating_calls (adapter : SecretsAdapter)
    (sealOp : List Byte → List Byte → List Byte) (mappings : List (String × String))
    (fuel : Nat) :
    deletedNames (syncRepoSecrets true adapter sealOp mappings fuel).1 = []
      ∧ upsertNames (syncRepoSecrets true adapter sealOp mappings fuel).1 = []
      ∧ Call.getPublicKey ∉ (syncRepoSecrets true adapter sealOp mappings fuel).1
      ∧ (∃ p, Call.listSecrets p ∈ (syncRepoSecrets true adapter sealOp mappings fuel).1)
      ∧ (∀ tr names, listAllSecrets adapter.listPage fuel 0 [] [] = (tr, Except.ok names) →
          syncRepoSecrets true adapter sealOp mappings fuel = (tr, Except.ok ()))
      ∧ putRepoSecrets true adapter sealOp mappings = ([], Except.ok ()) := by
  obtain ⟨ex, hex, hall⟩ := listAllSecrets_trace_shape adapter.listPage fuel 0 [] []
  simp only [List.nil_append] at hex
  have htr : (syncRepoSecrets true adapter sealOp mappings fuel).1
      = (listAllSecrets adapter.listPage fuel 0 [] []).1 := by
    simp only [syncRepoSecrets, if_true]
    rcases hres : listAllSecrets adapter.listPage fuel 0 [] [] with ⟨tr, res⟩
    cases res <;> rfl
  have hallFull : ∀ c ∈ (syncRepoSecrets true adapter sealOp mappings fuel).1,
      ∃ p, c = Call.listSecrets p := by
    intro c hc
    rw [htr, hex, List.mem_cons] at hc
    rcases hc with rfl | hc
    · exact ⟨0, rfl⟩
    · exact hall c hc
  have hmut := listCalls_no_mutations _ hallFull
  refine ⟨hmut.1, hmut.2.1, hmut.2.2, ⟨0, ?_⟩, ?_, rfl⟩
  · rw [htr, hex]
    exact List.mem_cons_self _ _
  · intro tr names h
    simp only [syncRepoSecrets, if_true]
    rw [h]

/-- Evaluates dry_run_no_mutating_calls on the concrete remote: the dry-run
sync performs exactly the one listing call and succeeds. -/
theorem dry_run_no_mutating_calls_witness :
    syncRepoSecrets true adapterABC sealStub desiredBD 5
      = ([Call.listSecrets 0], Except.ok ()) :=
  (dry_run_no_mutating_calls adapterABC sealStub desiredBD 5).2.2.2.2.1
    [Call.listSecrets 0] ["A", "B", "C"] rfl

/-- Claim C4: when the pagination of the existing-entry listing fails, the
whole sync (repository and Dependabot alike) aborts with that error and its
trace contains no delete and no upsert call — deletions are never computed
from a partially aggregated existing-name set. -/
theorem listing_error_aborts_sync (adapter : SecretsAdapter)
    (sealOp : List Byte → List Byte → List Byte) (mappings : List (String × String))
    (fuel : Nat) (tr : List Call) (e : String)
    (h : listAllSecrets adapter.listPage fuel 0 [] [] = (tr, Except.error e)) :
    syncRepoSecrets false adapter sealOp mappings fuel
        = (tr, Except.error ("failed to list existing secrets: " ++ e))
      ∧ syncDependabotSecrets false adapter sealOp mappings fuel = (tr, Except.error e)
      ∧ deletedNames tr = [] ∧ upsertNames tr = [] := by
  obtain ⟨ex, hex, hall⟩ := listAllSecrets_trace_shape adapter.listPage fuel 0 [] []
  rw [h] at hex
  simp only [List.nil_append] at hex
  have hmut := listCalls_no_mutations tr ?_
  · refine ⟨?_, ?_, hmut.1, hmut.2.1⟩
    · simp only [syncRepoSecrets, Bool.false_eq_true, if_false]
      rw [h]
    · simp only [syncDependabotSecrets, Bool.false_eq_true, if_false]
      rw [h]
  · intro c hc
    rw [hex, List.mem_cons] at hc
    rcases hc with rfl | hc
    · exact ⟨0, rfl⟩
    · exact hall c hc

/-- Evaluates listing_error_aborts_sync on a remote whose second page fails:
the sync aborts with the wrapped listing error after two listing calls and
no deletion. -/
theorem listing_error_aborts_sync_witness :
    syncRepoSecrets false adapterFailPage sealStub desiredBD 5
        = ([Call.listSecrets 0, Call.listSecrets 2],
           Except.error "failed to list existing secrets: boom")
      ∧ deletedNames [Call.listSecrets 0, Call.listSecrets 2] = [] := by
  have h := listing_error_aborts_sync adapterFailPage sealStub desiredBD 5
      [Call.listSecrets 0, Call.listSecrets 2] "boom" rfl
  exact ⟨h.1, h.2.2.1⟩

/-- Claim C9: a scope handler invoked with an empty parsed mapping returns
at once without issuing any remote call, even when prune is set, for both
the repository-secrets and the Dependabot-secrets handlers. -/
theorem empty_mapping_handlers_no_calls (prune dryRunEnabled : Bool)
    (adapter : SecretsAdapter) (sealOp : List Byte → List Byte → List Byte) (fuel : Nat) :
    handleRepoSecrets prune dryRunEnabled adapter sealOp [] fuel = ([], Except.ok ())
      ∧ handleDependabotSecrets prune dryRunEnabled adapter sealOp [] fuel = ([], Except.ok ()) :=
  ⟨rfl, rfl⟩

/-- Claim C10: when the governor's own quota fetch fails, ensureRatelimits
and waitForRateLimitReset log and return without any sleep, and the governed
call delegates to the wrapped client, whose outcome is returned unchanged —
a quota-fetch failure never fails the wrapped operation. -/
theorem quota_fetch_error_delegates (e : String) (rest : List (Except String Rate))
    (now : Int) (delegateResult : Except String Unit) :
    ensureRatelimits (Except.error e :: rest) now = some (now, [RLEvent.fetchRatelimits])
      ∧ waitForRateLimitReset (Except.error e :: rest) now = some (now, [RLEvent.fetchRatelimits])
      ∧ rateLimitedDeleteRepoSecret (Except.error e :: rest) now delegateResult
          = some (now, [RLEvent.fetchRatelimits, RLEvent.delegate], delegateResult) :=
  ⟨rfl, rfl, rfl⟩

theorem waitForRateLimitReset_le :
    ∀ (fs : List (Except String Rate)) (now t : Int) (evs : List RLEvent),
      waitForRateLimitReset fs now = some (t, evs) → now ≤ t := by
  intro fs
  induction fs with
  | nil => intro now t evs h; exact absurd h (by simp [waitForRateLimitReset])
  | cons f rest ih =>
    intro now t evs h
    cases f with
    | error e =>
      simp only [waitForRateLimitReset, Option.some.injEq, Prod.mk.injEq] at h
      exact le_of_eq h.1
    | ok r =>
      simp only [waitForRateLimitReset] at h
      by_cases hw : (0 : Int) < r.reset - now
      · rw [if_pos hw] at h
        cases hrec : waitForRateLimitReset rest (now + (r.reset - now + 1)) with
        | none => rw [hrec] at h; exact absurd h (by simp)
        | some p =>
          obtain ⟨t0, evs0⟩ := p
          rw [hrec] at h
          simp only [Option.some.injEq, Prod.mk.injEq] at h
          have hle := ih (now + (r.reset - now + 1)) t0 evs0 hrec
          obtain ⟨h1, h2⟩ := h
          omega
      · rw [if_neg hw] at h
        simp only [Option.some.injEq, Prod.mk.injEq] at h
        exact le_of_eq h.1

theorem ensureRatelimits_head :
    ∀ (fs : List (Except String Rate)) (now t : Int) (evs : List RLEvent),
      ensureRatelimits fs now = some (t, evs) →
      evs.head? = some RLEvent.fetchRatelimits := by
  intro fs now t evs h
  cases fs with
  | nil => exact absurd h (by simp [ensureRatelimits])
  | cons f rest =>
    cases f with
    | error e =>
      simp only [ensureRatelimits, Option.some.injEq, Prod.mk.injEq] at h
      rw [← h.2]
      rfl
    | ok r =>
      simp only [ensureRatelimits] at h
      cases hl : rateLow r.remaining r.limit with
      | false => rw [hl] at h; simp only [Bool.false_eq_true, if_false,
          Option.some.injEq, Prod.mk.injEq] at h; rw [← h.2]; rfl
      | true =>
        rw [hl] at h
        simp only [if_true] at h
        cases hrec : waitForRateLimitReset rest now with
        | none => rw [hrec] at h; exact absurd h (by simp)
        | some p =>
          obtain ⟨t0, evs0⟩ := p
          rw [hrec] at h
          simp only [Option.some.injEq, Prod.mk.injEq] at h
          rw [← h.2]
          rfl

theorem ensureRatelimits_low (r : Rate) (rest : List (Except String Rate)) (now : Int)
    (h : rateLow r.remaining r.limit = true) :
    ensureRatelimits (Except.ok r :: rest) now
      = match waitForRateLimitReset rest now with
        | none => none
        | some (t, evs) => some (t, RLEvent.fetchRatelimits :: evs) := by
  simp [ensureRatelimits, h]

theorem waitForRateLimitReset_future (r : Rate) (rest : List (Except String Rate)) (now : Int)
    (h : (0 : Int) < r.reset - now) :
    waitForRateLimitReset (Except.ok r :: rest) now
      = match waitForRateLimitReset rest (now + (r.reset - now + 1)) with
        | none => none
        | some (t, evs) =>
          some (t, RLEvent.fetchRatelimits :: RLEvent.sleep (r.reset - now + 1) :: evs) := by
  simp only [waitForRateLimitReset, if_pos h]

/-- Counterexample to claim C7: with the quota fraction at or below the 5%
threshold but the fetched reset instant not in the future (here equal to the
current time 100), the governor delegates immediately without any sleep,
even though the reset time plus the one-second margin (101) has not yet
elapsed. -/
theorem governor_no_wait_at_reset_boundary :
    rateLow 2 100 = true
      ∧ rateLimitedDeleteRepoSecret
            [Except.ok ⟨100, 2, 100⟩, Except.ok ⟨100, 2, 100⟩] 100 (Except.ok ())
          = some (100, [RLEvent.fetchRatelimits, RLEvent.fetchRatelimits, RLEvent.delegate],
                  Except.ok ())
      ∧ ¬ ((100 : Int) + 1 ≤ 100) :=
  ⟨rfl, rfl, by decide⟩

/-- Claim C7 as amended: every governed call fetches the quota before
delegating; when the remaining fraction exceeds 5% it delegates immediately
with no sleep; when it is at or below 5% the governor re-fetches, and while
the fetched reset instant is strictly in the future it sleeps the remaining
time plus a one-second margin (so it wakes, and can only delegate, at or
after that reset instant plus one second); when the fetched reset instant is
not in the future it delegates at once, without enforcing the margin. -/
theorem governor_threshold_wait_behavior :
    (∀ (r : Rate) (rest : List (Except String Rate)) (now : Int),
        rateLow r.remaining r.limit = false →
        ensureRatelimits (Except.ok r :: rest) now = some (now, [RLEvent.fetchRatelimits]))
      ∧ (∀ (r r2 : Rate) (rest : List (Except String Rate)) (now : Int),
          rateLow r.remaining r.limit = true → r2.reset ≤ now →
          ensureRatelimits (Except.ok r :: Except.ok r2 :: rest) now
            = some (now, [RLEvent.fetchRatelimits, RLEvent.fetchRatelimits]))
      ∧ (∀ (r r2 : Rate) (rest : List (Except String Rate)) (now t : Int)
          (evs : List RLEvent),
          rateLow r.remaining r.limit = true → now < r2.reset →
          ensureRatelimits (Except.ok r :: Except.ok r2 :: rest) now = some (t, evs) →
          RLEvent.sleep (r2.reset - now + 1) ∈ evs ∧ r2.reset + 1 ≤ t)
      ∧ (∀ (fetches : List (Except String Rate)) (now : Int)
          (delegateResult : Except String Unit) (t : Int) (evs : List RLEvent)
          (res : Except String Unit),
          rateLimitedDeleteRepoSecret fetches now delegateResult = some (t, evs, res) →
          res = delegateResult ∧ evs.head? = some RLEvent.fetchRatelimits
            ∧ evs.getLast? = some RLEvent.delegate) := by
  refine ⟨?_, ?_, ?_, ?_⟩
  · intro r rest now h
    simp [ensureRatelimits, h]
  · intro r r2 rest now h1 h2
    have hw : ¬ ((0 : Int) < r2.reset - now) := by omega
    rw [ensureRatelimits_low r _ now h1]
    simp only [waitForRateLimitReset, if_neg hw]
  · intro r r2 rest now t evs h1 h2 h
    have hw : (0 : Int) < r2.reset - now := by omega
    rw [ensureRatelimits_low r _ now h1, waitForRateLimitReset_future r2 rest now hw] at h
    cases hrec : waitForRateLimitReset rest (now + (r2.reset - now + 1)) with
    | none => rw [hrec] at h; exact absurd h (by simp)
    | some p =>
      obtain ⟨t0, evs0⟩ := p
      rw [hrec] at h
      simp only [Option.some.injEq, Prod.mk.injEq] at h
      obtain ⟨ht, he⟩ := h
      have hle := waitForRateLimitReset_le rest (now + (r2.reset - now + 1)) t0 evs0 hrec
      constructor
      · rw [← he]
        simp
      · omega
  · intro fetches now delegateResult t evs res h
    simp only [rateLimitedDeleteRepoSecret] at h
    cases hens : ensureRatelimits fetches now with
    | none => rw [hens] at h; exact absurd h (by simp)
    | some p =>
      obtain ⟨t0, evs0⟩ := p
      rw [hens] at h
      simp only [Option.some.injEq, Prod.mk.injEq] at h
      obtain ⟨ht, he, hr⟩ := h
      have hhead := ensureRatelimits_head fetches now t0 evs0 hens
      refine ⟨hr.symm, ?_, ?_⟩
      · rw [← he]
        cases evs0 with
        | nil => simp at hhead
        | cons a l => simp only [List.cons_append, List.head?_cons] at hhead ⊢; exact hhead
      · rw [← he]
        simp

/-- Evaluates governor_threshold_wait_behavior on a concrete low-quota run:
the wait sleeps 31 seconds (the 30 seconds to the reset instant 130 plus the
margin) and delegation happens at time 131, at or after reset plus one. -/
theorem governor_threshold_wait_behavior_witness :
    RLEvent.sleep 31
        ∈ [RLEvent.fetchRatelimits, RLEvent.fetchRatelimits, RLEvent.sleep 31,
           RLEvent.fetchRatelimits]
      ∧ (131 : Int) ≤ 131 :=
  governor_threshold_wait_behavior.2.2.1 ⟨100, 2, 130⟩ ⟨100, 2, 130⟩
    [Except.ok ⟨100, 50, 130⟩] 100 131
    [RLEvent.fetchRatelimits, RLEvent.fetchRatelimits, RLEvent.sleep 31,
     RLEvent.fetchRatelimits] rfl (by decide) rfl

/-- Counterexample to claim C6: an operation that always fails, wrapped with
maxRetries = 1, is invoked twice (the initial attempt plus one retry), not
once, before the failure is returned. -/
theorem retry_single_retry_two_invocations :
    backoffRetry (fun _ => Except.error "remote failure") 1
      = (2, Except.error "remote failure") := rfl

/-- Claim C6 as amended: an operation failing twice and succeeding on its
third invocation, wrapped with maxRetries = 3, returns success after exactly
3 invocations; an operation that always fails, wrapped with maxRetries = 1,
returns the failure after exactly 2 invocations (maxRetries bounds the
retries after the initial attempt, so at most maxRetries + 1 invocations
occur). -/
theorem retry_invocation_counts (op : Nat → Except String Unit) (e0 e1 : String)
    (h0 : op 0 = Except.error e0) (h1 : op 1 = Except.error e1)
    (h2 : op 2 = Except.ok ()) :
    backoffRetry op 3 = (3, Except.ok ())
      ∧ (∀ (op1 : Nat → Except String Unit) (e : String),
          (∀ i, op1 i = Except.error e) → backoffRetry op1 1 = (2, Except.error e))
      ∧ (∀ (op2 : Nat → Except String Unit) (e : String) (maxRetries : Nat),
          (∀ i, op2 i = Except.error e) →
          backoffRetry op2 maxRetries = (maxRetries + 1, Except.error e)) := by
  have key : ∀ (op2 : Nat → Except String Unit) (e : String) (remaining attempt : Nat),
      (∀ i, op2 i = Except.error e) →
      backoffRetryAux op2 attempt remaining = (attempt + remaining + 1, Except.error e) := by
    intro op2 e remaining
    induction remaining with
    | zero => intro attempt h; simp [backoffRetryAux, h attempt]
    | succ r ih =>
      intro attempt h
      rw [backoffRetryAux, h attempt, ih (attempt + 1) h]
      simp only [Prod.mk.injEq]
      exact ⟨by omega, trivial⟩
  refine ⟨?_, ?_, ?_⟩
  · simp [backoffRetry, backoffRetryAux, h0, h1, h2]
  · intro op1 e h
    exact key op1 e 1 0 h
  · intro op2 e maxRetries h
    have := key op2 e maxRetries 0 h
    simpa using this

/-- Evaluates retry_invocation_counts on concrete operations: success after
exactly 3 invocations with maxRetries = 3, failure after exactly 2
invocations with maxRetries = 1. -/
theorem retry_invocation_counts_witness :
    backoffRetry retryOpThird 3 = (3, Except.ok ())
      ∧ backoffRetry (fun _ => Except.error "always") 1 = (2, Except.error "always") := by
  have h := retry_invocation_counts retryOpThird "transient 1" "transient 2" rfl rfl rfl
  exact ⟨h.1, h.2.1 _ "always" (fun _ => rfl)⟩

/-- Counterexample to claim C3: the environment-scope create-or-update
swallows a non-not-found update failure (a 403) by falling back to create and
reporting success, and the repository-scope create-or-update never attempts
the platform update action at all. -/
theorem variable_update_first_counterexample :
    (createOrUpdateEnvVariable varAdapterUpdateForbidden "VAR1" "prod").2 = Except.ok ()
      ∧ VarCall.updateVar ∉ (createOrUpdateRepoVariable varAdapterAllOk).1 :=
  ⟨rfl, by decide⟩

/-- Claim C3 as amended: the repository-scope operation issues only the
platform create action and surfaces its outcome directly (no update is ever
attempted); the environment-scope operation attempts update first, succeeds
without a create call when update succeeds, falls back to create on any
update failure (not only not-found ones) and then succeeds when create
succeeds, and surfaces a combined error only when both attempts fail. -/
theorem variable_create_or_update_behavior (adapter : VariableAdapter)
    (name envName : String) :
    VarCall.updateVar ∉ (createOrUpdateRepoVariable adapter).1
      ∧ (createOrUpdateRepoVariable adapter).2 = adapter.createVar
      ∧ (adapter.updateVar = Except.ok () →
          createOrUpdateEnvVariable adapter name envName = ([VarCall.updateVar], Except.ok ()))
      ∧ (∀ e, adapter.updateVar = Except.error e → adapter.createVar = Except.ok () →
          (createOrUpdateEnvVariable adapter name envName).2 = Except.ok ())
      ∧ (∀ e ce, adapter.updateVar = Except.error e → adapter.createVar = Except.error ce →
          (createOrUpdateEnvVariable adapter name envName).2
            = Except.error ("failed to update environment variable " ++ name ++ " in environment "
                ++ envName ++ ": " ++ e ++ "; failed to create: " ++ ce)) := by
  refine ⟨by simp [createOrUpdateRepoVariable], rfl, ?_, ?_, ?_⟩
  · intro h; simp [createOrUpdateEnvVariable, h]
  · intro e h hc; simp [createOrUpdateEnvVariable, h, hc]
  · intro e ce h hc; simp [createOrUpdateEnvVariable, h, hc]

/-- Evaluates variable_create_or_update_behavior on the adapter whose update
fails with a 403 while create succeeds: the combined operation reports
success. -/
theorem variable_create_or_update_behavior_witness :
    (createOrUpdateEnvVariable varAdapterUpdateForbidden "VAR2" "staging").2 = Except.ok () :=
  (variable_create_or_update_behavior varAdapterUpdateForbidden "VAR2" "staging").2.2.2.1
    "403 Forbidden" rfl rfl

/-- Counterexample to claim C5: a public key whose base64 material decodes
to only five bytes (fewer than the 32-byte sealed-box key size) is not
rejected — sealing proceeds over the zero-padded key and produces an
encrypted payload. -/
theorem encrypt_short_key_accepted :
    base64Decode shortKeyPk.key.toList = some [104, 101, 108, 108, 111]
      ∧ ([104, 101, 108, 108, 111] : List Byte).length < 32
      ∧ encryptSecretWithPublicKey sealStub shortKeyPk "SECRET1" "value1"
          = Except.ok { name := "SECRET1", keyId := "key-1",
                        encryptedValue := base64Encode (sealStub
                          (boxKeyOf [104, 101, 108, 108, 111]) (strBytes "value1")) } :=
  ⟨rfl, by decide, rfl⟩

/-- Claim C5 as amended: the sealing operation fails exactly when base64
decoding of the public key fails; a successfully decoded key, of any length,
is truncated or zero-padded to the fixed 32-byte size and sealing proceeds,
producing a payload that carries the key identifier unchanged. -/
theorem encrypt_decode_behavior (sealOp : List Byte → List Byte → List Byte)
    (pk : PublicKey) (n v : String) :
    (base64Decode pk.key.toList = none →
        encryptSecretWithPublicKey sealOp pk n v = Except.error "failed to decode public key")
      ∧ ∀ ds, base64Decode pk.key.toList = some ds →
          (boxKeyOf ds).length = 32
            ∧ encryptSecretWithPublicKey sealOp pk n v
                = Except.ok { name := n, keyId := pk.keyId,
                              encryptedValue := base64Encode (sealOp (boxKeyOf ds) (strBytes v)) } := by
  constructor
  · intro h; simp only [encryptSecretWithPublicKey, h]
  · intro ds h
    refine ⟨?_, by simp only [encryptSecretWithPublicKey, h]⟩
    simp only [boxKeyOf, List.length_append, List.length_take, List.length_replicate]
    omega

/-- Evaluates encrypt_decode_behavior on the five-byte key: the padded box
key has the fixed size and sealing succeeds. -/
theorem encrypt_decode_behavior_witness :
    (boxKeyOf [104, 101, 108, 108, 111]).length = 32
      ∧ encryptSecretWithPublicKey sealStub shortKeyPk "SECRET2" "value2"
          = Except.ok { name := "SECRET2", keyId := "key-1",
                        encryptedValue := base64Encode (sealStub
                          (boxKeyOf [104, 101, 108, 108, 111]) (strBytes "value2")) } :=
  (encrypt_decode_behavior sealStub shortKeyPk "SECRET2" "value2").2
    [104, 101, 108, 108, 111] rfl

theorem mem_of_head?_eq {α : Type} (l : List α) (c : α) (h : l.head? = some c) : c ∈ l := by
  cases l with
  | nil => exact absurd h (by simp)
  | cons a t =>
    simp only [List.head?_cons, Option.some.injEq] at h
    exact h ▸ List.mem_cons_self a t

theorem mem_of_getLast?_eq {α : Type} (l : List α) (c : α) (h : l.getLast? = some c) : c ∈ l := by
  obtain ⟨hne, rfl⟩ := List.mem_getLast?_eq_getLast (show c ∈ l.getLast? from h ▸ rfl)
  exact List.getLast_mem hne

theorem splitOnNewline_ne_nil (l : List Char) : splitOnNewline l ≠ [] := by
  cases l with
  | nil => simp [splitOnNewline]
  | cons c t =>
    simp only [splitOnNewline]
    cases h : splitOnNewline t with
    | nil => simp
    | cons a as => by_cases hc : c = '\n' <;> simp [hc]

theorem splitOnNewline_no_newline (l : List Char) (h : '\n' ∉ l) : splitOnNewline l = [l] := by
  induction l with
  | nil => rfl
  | cons c t ih =>
    have hc : c ≠ '\n' := fun hh => h (hh ▸ List.mem_cons_self c t)
    have ht : '\n' ∉ t := fun hh => h (List.mem_cons_of_mem c hh)
    simp only [splitOnNewline, ih ht]
    simp [hc]

theorem splitOnNewline_append (l r : List Char) (h : '\n' ∉ l) :
    splitOnNewline (l ++ '\n' :: r) = l :: splitOnNewline r := by
  induction l with
  | nil =>
    simp only [List.nil_append, splitOnNewline]
    cases hr : splitOnNewline r with
    | nil => exact absurd hr (splitOnNewline_ne_nil r)
    | cons a as => simp
  | cons c t ih =>
    have hc : c ≠ '\n' := fun hh => h (hh ▸ List.mem_cons_self c t)
    have ht : '\n' ∉ t := fun hh => h (List.mem_cons_of_mem c hh)
    simp only [List.cons_append]
    rw [splitOnNewline, ih ht]
    simp [hc]

theorem splitOnNewline_joinLines (lines : List (List Char)) :
    lines ≠ [] → (∀ l ∈ lines, '\n' ∉ l) → splitOnNewline (joinLines lines) = lines := by
  induction lines with
  | nil => intro h _; exact absurd rfl h
  | cons l rest ih =>
    intro _ hall
    cases rest with
    | nil =>
      simp only [joinLines]
      exact splitOnNewline_no_newline l (hall l (by simp))
    | cons l2 ls =>
      have h1 : '\n' ∉ l := hall l (by simp)
      have hjoin : joinLines (l :: l2 :: ls) = l ++ '\n' :: joinLines (l2 :: ls) := rfl
      rw [hjoin, splitOnNewline_append l _ h1,
          ih (by simp) (fun x hx => hall x (List.mem_cons_of_mem l hx))]

theorem trimLeft_eq_self (s : List Char)
    (h : ∀ c, s.head? = some c → goIsSpace c = false) : trimLeft s = s := by
  cases s with
  | nil => rfl
  | cons c t =>
    have hc := h c rfl
    simp [trimLeft, List.dropWhile_cons, hc]

theorem trimRight_eq_self (s : List Char)
    (h : ∀ c, s.getLast? = some c → goIsSpace c = false) : trimRight s = s := by
  have hrev : s.reverse.dropWhile goIsSpace = s.reverse := by
    cases hr : s.reverse with
    | nil => rfl
    | cons a t =>
      have ha : s.getLast? = some a := by rw [← List.head?_reverse, hr]; rfl
      simp [List.dropWhile_cons, h a ha]
  simp [trimRight, hrev]

theorem trimSpace_eq_self (s : List Char)
    (hh : ∀ c, s.head? = some c → goIsSpace c = false)
    (hl : ∀ c, s.getLast? = some c → goIsSpace c = false) : trimSpace s = s := by
  rw [trimSpace, trimLeft_eq_self s hh, trimRight_eq_self s hl]

theorem splitFirstEq_append (k v : List Char) (h : '=' ∉ k) :
    splitFirstEq (k ++ '=' :: v) = some (k, v) := by
  induction k with
  | nil => simp [splitFirstEq]
  | cons c t ih =>
    have hc : c ≠ '=' := fun hh => h (hh ▸ List.mem_cons_self c t)
    have ht : '=' ∉ t := fun hh => h (List.mem_cons_of_mem c hh)
    simp only [List.cons_append]
    rw [splitFirstEq, ih ht]
    simp [hc]

theorem mapInsert_append (m : KVMap) (k v : List Char) (h : k ∉ m.map Prod.fst) :
    mapInsert m k v = m ++ [(k, v)] := by
  induction m with
  | nil => rfl
  | cons p rest ih =>
    obtain ⟨k0, v0⟩ := p
    simp only [List.map_cons, List.mem_cons] at h
    push_neg at h
    simp only [mapInsert]
    rw [if_neg (Ne.symm h.1), ih h.2]
    rfl

theorem wfPair_spec (k v : List Char) (h : wfPair k v = true) :
    k ≠ [] ∧ (∀ c ∈ k, goIsSpace c = false) ∧ (∀ c ∈ k, c ≠ '=') ∧ toUpperStr k = k
      ∧ v ≠ [] ∧ (∀ c ∈ v, c ≠ '\n')
      ∧ (∀ c, v.head? = some c → goIsSpace c = false)
      ∧ (∀ c, v.getLast? = some c → goIsSpace c = false) := by
  simp only [wfPair, Bool.and_eq_true] at h
  obtain ⟨⟨⟨⟨⟨⟨h1, h2⟩, h3⟩, h4⟩, h5⟩, h6⟩, h7⟩ := h
  refine ⟨?_, ?_, ?_, ?_, ?_, ?_, ?_, ?_⟩
  · intro hk; rw [hk] at h1; exact absurd h1 (by decide)
  · intro c hc
    have := List.all_eq_true.mp h2 c hc
    simp only [Bool.and_eq_true, Bool.not_eq_true'] at this
    exact this.1
  · intro c hc
    have := List.all_eq_true.mp h2 c hc
    simp only [Bool.and_eq_true, bne_iff_ne] at this
    exact this.2
  · exact beq_iff_eq.mp h3
  · intro hv; rw [hv] at h4; exact absurd h4 (by decide)
  · intro c hc
    have := List.all_eq_true.mp h5 c hc
    simpa using this
  · intro c hc
    rw [hc] at h6
    simpa using h6
  · intro c hc
    rw [hc] at h7
    simpa using h7

theorem line_facts (k v : List Char) (h : wfPair k v = true) :
    (k ++ '=' :: v) ≠ []
      ∧ trimSpace (k ++ '=' :: v) = k ++ '=' :: v
      ∧ splitFirstEq (k ++ '=' :: v) = some (k, v)
      ∧ trimSpace k = k ∧ trimSpace v = v ∧ k ≠ [] ∧ v ≠ []
      ∧ toUpperStr k = k ∧ '\n' ∉ (k ++ '=' :: v) := by
  obtain ⟨hk, hksp, hkeq, hkup, hv, hvn, hvh, hvl⟩ := wfPair_spec k v h
  have hlineHead : ∀ c, (k ++ '=' :: v).head? = some c → goIsSpace c = false := by
    intro c hc
    rw [List.head?_append_of_ne_nil k hk] at hc
    exact hksp c (mem_of_head?_eq k c hc)
  have hlineLast : ∀ c, (k ++ '=' :: v).getLast? = some c → goIsSpace c = false := by
    intro c hc
    rw [List.getLast?_append_of_ne_nil k (by simp)] at hc
    cases v with
    | nil => exact absurd hv (by simp_all)
    | cons b t =>
      rw [List.getLast?_cons_cons] at hc
      exact hvl c hc
  refine ⟨by simp [hk], trimSpace_eq_self _ hlineHead hlineLast,
    splitFirstEq_append k v (fun hin => (hkeq '=' hin) rfl),
    trimSpace_eq_self k ?_ ?_, trimSpace_eq_self v hvh hvl, hk, hv, hkup, ?_⟩
  · intro c hc; exact hksp c (mem_of_head?_eq k c hc)
  · intro c hc; exact hksp c (mem_of_getLast?_eq k c hc)
  · intro hin
    rw [List.mem_append, List.mem_cons] at hin
    rcases hin with hin | hin | hin
    · exact absurd (hksp _ hin) (by decide)
    · exact absurd hin (by decide)
    · exact (hvn _ hin) rfl

theorem parseKVLines_wf (ps : List (List Char × List Char)) :
    ∀ acc : KVMap, (∀ p ∈ ps, wfPair p.1 p.2 = true) →
      (ps.map Prod.fst).Nodup →
      (∀ p ∈ ps, p.1 ∉ acc.map Prod.fst) →
      parseKVLines (ps.map fun p => p.1 ++ '=' :: p.2) acc = Except.ok (acc ++ ps) := by
  induction ps with
  | nil => intro acc _ _ _; simp [parseKVLines]
  | cons p rest ih =>
    obtain ⟨k, v⟩ := p
    intro acc hall hnd hdisj
    obtain ⟨hne, htrim, hsplit, htk, htv, hk, hv, hup, _⟩ :=
      line_facts k v (hall (k, v) (by simp))
    rw [List.map_cons, parseKVLines, htrim, if_neg hne, hsplit]
    simp only
    rw [htk, htv, if_neg (not_or.mpr ⟨hk, hv⟩), hup,
        mapInsert_append acc k v (hdisj (k, v) (by simp))]
    rw [List.map_cons, List.nodup_cons] at hnd
    rw [ih (acc ++ [(k, v)]) (fun q hq => hall q (List.mem_cons_of_mem _ hq)) hnd.2 ?_]
    · simp
    · intro q hq
      rw [List.map_append, List.mem_append]
      push_neg
      refine ⟨hdisj q (List.mem_cons_of_mem _ hq), ?_⟩
      intro hqk
      simp only [List.map_cons, List.map_nil, List.mem_singleton] at hqk
      exact hnd.1 (List.mem_map.mpr ⟨q, hq, hqk⟩)

theorem literal_pairs_of_lines (ps : List (List Char × List Char)) :
    (∀ p ∈ ps, wfPair p.1 p.2 = true) →
    ((ps.map fun p => p.1 ++ '=' :: p.2).filterMap
      fun line => if trimSpace line = [] then none else splitFirstEq line) = ps := by
  induction ps with
  | nil => intro _; rfl
  | cons p rest ih =>
    obtain ⟨k, v⟩ := p
    intro hall
    obtain ⟨hne, htrim, hsplit, _, _, _, _, _, _⟩ := line_facts k v (hall (k, v) (by simp))
    rw [List.map_cons, List.filterMap_cons, htrim, if_neg hne, hsplit,
        ih (fun q hq => hall q (List.mem_cons_of_mem _ hq))]

/-- Counterexample to claim C8: the well-formed input with the single line
consisting of a lower-case key yields, after parsing, the upper-cased key, so
the re-serialized pair set differs from the literal pair set of the original
input. -/
theorem parse_uppercases_roundtrip_fails :
    parseKeyValuePairs jbStub "a=b".toList = Except.ok [("A".toList, "b".toList)]
      ∧ literalPairs "a=b".toList = [("a".toList, "b".toList)]
      ∧ serializeKV [("A".toList, "b".toList)] = "A=b".toList
      ∧ ("a".toList, "b".toList) ∉ [(("A".toList : List Char), ("b".toList : List Char))] :=
  ⟨rfl, rfl, rfl, by decide⟩

/-- Claim C8 as amended: parsing upper-cases keys and trims keys and values,
so the literal round trip holds on the normalized class of inputs: for every
pair list whose keys are non-empty, already upper-case, free of whitespace
and equals signs, and pairwise distinct, and whose values are non-empty,
newline-free and not wrapped in whitespace (values may contain equals
signs), and whose serialized form is not auto-detected as JSON, parsing the
serialized input returns exactly that pair list — the set of (key, value)
pairs is preserved, independent of order; on general well-formed inputs the
parsed set is the trimmed, key-upper-cased image of the written pairs. -/
theorem parse_serialize_roundtrip (jb : List Char → Except (List Char) KVMap)
    (ps : List (List Char × List Char)) (hwf : wfPairs ps = true)
    (hjson : jsonShaped (trimSpace (serializeKV ps)) = false) :
    parseKeyValuePairs jb (serializeKV ps) = Except.ok ps
      ∧ literalPairs (serializeKV ps) = ps := by
  obtain ⟨hall, hnd⟩ : (∀ p ∈ ps, wfPair p.1 p.2 = true) ∧ (ps.map Prod.fst).Nodup := by
    simp only [wfPairs, Bool.and_eq_true, List.all_eq_true, decide_eq_true_eq] at hwf
    exact hwf
  cases ps with
  | nil => exact ⟨rfl, rfl⟩
  | cons p rest =>
    have hlineNoNl : ∀ l ∈ ((p :: rest).map fun q => q.1 ++ '=' :: q.2), '\n' ∉ l := by
      intro l hl
      rw [List.mem_map] at hl
      obtain ⟨q, hq, rfl⟩ := hl
      exact (line_facts q.1 q.2 (hall q hq)).2.2.2.2.2.2.2.2
    have hsplitJoin : splitOnNewline (serializeKV (p :: rest))
        = (p :: rest).map fun q => q.1 ++ '=' :: q.2 := by
      rw [serializeKV]
      exact splitOnNewline_joinLines _ (by simp) hlineNoNl
    have hraw : serializeKV (p :: rest) ≠ [] := by
      obtain ⟨k, v⟩ := p
      cases rest with
      | nil => simp [serializeKV, joinLines]
      | cons q qs => simp [serializeKV, joinLines]
    constructor
    · rw [parseKeyValuePairs, if_neg hraw, if_neg (by simp [hjson]), hsplitJoin]
      have := parseKVLines_wf (p :: rest) [] hall hnd (by simp)
      rw [this]
      simp
    · rw [literalPairs, hsplitJoin]
      exact literal_pairs_of_lines (p :: rest) hall

/-- Evaluates parse_serialize_roundtrip on a concrete normalized pair list
whose second value contains equals signs and an inner space: parsing the
serialized form returns exactly the original pairs. -/
theorem parse_serialize_roundtrip_witness :
    parseKeyValuePairs jbStub (serializeKV wfSample) = Except.ok wfSample
      ∧ literalPairs (serializeKV wfSample) = wfSample :=
  parse_serialize_roundtrip jbStub wfSample (by decide) (by decide)

end SyncSecrets
